import Mathlib

/-!
Shallow embedding of the corpus-to-batch helper pipeline in tools.py:
filesystem scan, newline-run segment splitting, input-output pair
generation, fixed-size batch assembly with a memory-ceiling guard,
memory-size estimation, and the plotting entry guard.

Modelling conventions: Python floats are modelled as rationals (every
quantity here is an integer divided by a power of two, which doubles
represent exactly at these magnitudes); machine integers as Nat; the
fitted tokenizer is abstracted as an encode function, as the spec treats
it as an external collaborator; sys.exit(code) is modelled as
Except.error code so that downstream code is unreachable after it; the
external keras collaborators pad_sequences (padding='pre',
truncating='pre', value 0) and to_categorical are embedded per their
documented contracts.
-/

/-- Conversion of a byte count to gigabytes: byte_number / (1024 ** 3). -/
def byte_to_gb (byte_number : ℚ) : ℚ :=
  byte_number / (1024 ^ 3)

/-- Memory size in GB of an array with the given shape and per-element
byte size: the running product of the shape dimensions times the item
size, converted to GB. -/
def get_array_memory_size (array_shape : List ℕ) (item_size : ℕ) : ℚ :=
  byte_to_gb (((array_shape.foldl (fun element_number tmp => element_number * tmp) 1)
    * item_size : ℕ) : ℚ)

/-- A directory entry as observed by the scanner: the entry's name and
whether os.path.isdir holds of the joined path. -/
structure DirEntry where
  name : String
  isDir : Bool
deriving DecidableEq

/-- Model of os.path.join as used by the scanner. -/
def pathJoin (path filename : String) : String :=
  path ++ "/" ++ filename

/-- get_filenames_under_path: walk the directory listing in order,
skip entries that are directories, and append the joined path of every
other entry. -/
def get_filenames_under_path (path : String) (entries : List DirEntry) : List String :=
  entries.foldl
    (fun filenames filename =>
      if filename.isDir then filenames else filenames ++ [pathJoin path filename.name])
    []

/-- Prepend a character to the first piece of a split result. -/
def consHead (c : Char) : List (List Char) → List (List Char)
  | [] => [[c]]
  | piece :: rest => (c :: piece) :: rest

/-- Worker for the newline-run split: the flag records whether the
previous character belonged to a newline run, so that a whole run yields
a single boundary. -/
def match_newline_split_aux : Bool → List Char → List (List Char)
  | _, [] => [[]]
  | inRun, c :: cs =>
    if c = '\n' then
      if inRun then match_newline_split_aux true cs
      else [] :: match_newline_split_aux true cs
    else consHead c (match_newline_split_aux false cs)

/-- Model of match_newline_pattern.split, i.e. re.split on one-or-more
newline characters: pieces between maximal newline runs, with an empty
piece for a run at the start or the end of the text. -/
def match_newline_split (text : List Char) : List (List Char) :=
  match_newline_split_aux false text

/-- The splitting step of generate_input_output_pair_from_corpus: split
the text on newline runs and drop the empty lines (the continue branch). -/
def split_nonempty_lines (text : List Char) : List (List Char) :=
  (match_newline_split text).filter (fun line => !line.isEmpty)

/-- The pairs yielded for one encoded segment: encoded[: i + 1] for i in
range(1, len(encoded)). -/
def pairs_of_encoded (encoded : List ℕ) : List (List ℕ) :=
  (List.range' 1 (encoded.length - 1)).map (fun i => encoded.take (i + 1))

/-- generate_input_output_pair_from_corpus: for each document, for each
non-empty line of the newline-run split, encode the line with the fitted
tokenizer (abstracted as encode) and yield every pair encoded[: i + 1]. -/
def generate_input_output_pair_from_corpus (docs : List (List Char))
    (encode : List Char → List ℕ) : List (List ℕ) :=
  docs.flatMap (fun text =>
    (split_nonempty_lines text).flatMap (fun line => pairs_of_encoded (encode line)))

/-- One row of keras pad_sequences(..., maxlen, padding='pre',
truncating='pre') with pad value 0: keep the last maxlen entries, then
left-pad with zeros up to maxlen. -/
def padRow (maxlen : ℕ) (seq : List ℕ) : List ℕ :=
  List.replicate (maxlen - seq.length) 0 ++ seq.drop (seq.length - maxlen)

/-- keras to_categorical: the one-hot row of the given width for a class
index. -/
def to_categorical (num_classes index : ℕ) : List ℕ :=
  (List.range num_classes).map (fun j => if j = index then 1 else 0)

/-- process_format_to_model_input: project the one-hot target memory for
shape (len(input_output_pairs), vocab_size + 1) at 8 bytes per element;
if it exceeds the threshold, print and sys.exit(0) (modelled as
Except.error 0); otherwise pre-pad every pair to max_length, take all but
the last column as X, and one-hot encode the last column as y. -/
def process_format_to_model_input (input_output_pairs : List (List ℕ))
    (vocab_size max_length : ℕ) (threshold_gb : ℚ) :
    Except ℕ (List (List ℕ) × List (List ℕ)) :=
  let y_shape := [input_output_pairs.length, vocab_size + 1]
  let y_memory_size := get_array_memory_size y_shape 8
  if y_memory_size > threshold_gb then
    Except.error 0
  else
    let padded := input_output_pairs.map (padRow max_length)
    let X := padded.map (fun row => row.dropLast)
    let y := padded.map (fun row => row.getLastD 0)
    Except.ok (X, y.map (fun index => to_categorical (vocab_size + 1) index))

/-- One pass of the inner for loop of generate_batch_samples_from_corpus
over a pair stream, carrying batch_samples_count and the buffered
input_output_pairs: below N - 1 the pair is buffered; otherwise the
buffer plus the pair is materialized and yielded, and the buffer resets.
Returns the yielded batches and the exit status if the materialization
terminated the process. -/
def batch_pass (N vocab_size max_length : ℕ) (threshold_gb : ℚ) :
    List (List ℕ) → ℕ → List (List ℕ) →
    List (List (List ℕ) × List (List ℕ)) × Option ℕ
  | [], _, _ => ([], none)
  | pair :: rest, batch_samples_count, input_output_pairs =>
    if batch_samples_count < N - 1 then
      batch_pass N vocab_size max_length threshold_gb rest
        (batch_samples_count + 1) (input_output_pairs ++ [pair])
    else
      match process_format_to_model_input (input_output_pairs ++ [pair])
          vocab_size max_length threshold_gb with
      | Except.error code => ([], some code)
      | Except.ok batch =>
        let r := batch_pass N vocab_size max_length threshold_gb rest 0 []
        (batch :: r.1, r.2)

/-- generate_batch_samples_from_corpus, run for a given number of passes
of its infinite while-True loop: each pass resets the count and the
buffer, re-reads the whole corpus through the pair generator, and yields
batches of N samples; an exit during materialization stops everything. -/
def generate_batch_samples_from_corpus (N vocab_size max_length : ℕ)
    (threshold_gb : ℚ) (docs : List (List Char)) (encode : List Char → List ℕ) :
    ℕ → List (List (List ℕ) × List (List ℕ)) × Option ℕ
  | 0 => ([], none)
  | passes + 1 =>
    let pass := batch_pass N vocab_size max_length threshold_gb
      (generate_input_output_pair_from_corpus docs encode) 0 []
    match pass.2 with
    | some code => (pass.1, some code)
    | none =>
      let rest := generate_batch_samples_from_corpus N vocab_size max_length
        threshold_gb docs encode passes
      (pass.1 ++ rest.1, rest.2)

/-- Observable outcome of plot_figure: either the too-many-curves branch
that reports and returns before any plotting, or the list of curves
actually plotted, each with its color-and-style string. -/
inductive PlotResult where
  | tooMany : PlotResult
  | plotted : List ((List ℚ × List ℚ) × String) → PlotResult
deriving DecidableEq

/-- plot_figure: with more than len(styles) = 4 curve tuples it reports
and returns; otherwise it plots args[i] with colors[i] + styles[i] for
each i below the number of tuples, then saves and shows the figure. -/
def plot_figure (figure_name : String) (args : List (List ℚ × List ℚ)) : PlotResult :=
  let colors := ["r", "b", "g", "y", "k"]
  let styles := ["-", "--", "-.", ":"]
  let max_args_num := styles.length
  let length := args.length
  if length > max_args_num then
    PlotResult.tooMany
  else
    PlotResult.plotted ((List.range length).map (fun i =>
      (args.getD i ([], []), colors.getD i "" ++ styles.getD i "")))

/-! Helper lemmas: evaluating the memory estimate and the two branches of
process_format_to_model_input. -/

theorem get_array_memory_size_pair (n v item_size : ℕ) :
    get_array_memory_size [n, v] item_size = ((n * v * item_size : ℕ) : ℚ) / 1024 ^ 3 := by
  simp only [get_array_memory_size, byte_to_gb, List.foldl]
  push_cast
  ring_nf

theorem process_format_eq_error (input_output_pairs : List (List ℕ))
    (vocab_size max_length : ℕ) (threshold_gb : ℚ)
    (h : threshold_gb < get_array_memory_size [input_output_pairs.length, vocab_size + 1] 8) :
    process_format_to_model_input input_output_pairs vocab_size max_length threshold_gb =
      Except.error 0 := by
  simp only [process_format_to_model_input, gt_iff_lt]
  rw [if_pos h]

theorem process_format_eq_ok (input_output_pairs : List (List ℕ))
    (vocab_size max_length : ℕ) (threshold_gb : ℚ)
    (h : get_array_memory_size [input_output_pairs.length, vocab_size + 1] 8 ≤ threshold_gb) :
    process_format_to_model_input input_output_pairs vocab_size max_length threshold_gb =
      Except.ok
        (input_output_pairs.map (fun pair => (padRow max_length pair).dropLast),
         input_output_pairs.map (fun pair =>
           to_categorical (vocab_size + 1) ((padRow max_length pair).getLastD 0))) := by
  simp only [process_format_to_model_input, gt_iff_lt]
  rw [if_neg (not_lt.mpr h)]
  simp [List.map_map, Function.comp]

/-! General helper lemmas about the embedded operations. -/

theorem foldl_mul_eq_prod (l : List ℕ) (a : ℕ) :
    l.foldl (fun element_number tmp => element_number * tmp) a = a * l.prod := by
  induction l generalizing a with
  | nil => simp
  | cons x xs ih => simp only [List.foldl, ih, List.prod_cons]; ring

theorem get_array_memory_size_eq_prod (array_shape : List ℕ) (item_size : ℕ) :
    get_array_memory_size array_shape item_size
      = ((array_shape.prod * item_size : ℕ) : ℚ) / 2 ^ 30 := by
  simp only [get_array_memory_size, byte_to_gb, foldl_mul_eq_prod]
  norm_num

theorem padRow_length (maxlen : ℕ) (seq : List ℕ) : (padRow maxlen seq).length = maxlen := by
  simp [padRow]
  omega

theorem getLastD_drop {α : Type} (k : ℕ) (l : List α) (d : α) (h : k < l.length) :
    (l.drop k).getLastD d = l.getLastD d := by
  have hne : l.drop k ≠ [] := by
    rw [ne_eq, List.drop_eq_nil_iff]
    omega
  rw [List.getLastD_eq_getLast?, List.getLastD_eq_getLast?]
  have : l.drop k ++ l.drop k = l.drop k ++ l.drop k := rfl
  have hsplit : l = l.take k ++ l.drop k := (List.take_append_drop k l).symm
  conv_rhs => rw [hsplit]
  rw [List.getLast?_append]
  rcases List.exists_cons_of_ne_nil hne with ⟨x, xs, hx⟩
  rw [hx]
  simp [List.getLast?_cons]

theorem padRow_getLastD (maxlen : ℕ) (seq : List ℕ) (hmax : 0 < maxlen) (hseq : seq ≠ []) :
    (padRow maxlen seq).getLastD 0 = seq.getLastD 0 := by
  have hlen : 0 < seq.length := List.length_pos.mpr hseq
  have hlt : seq.length - maxlen < seq.length := by omega
  have hne : seq.drop (seq.length - maxlen) ≠ [] := by
    rw [ne_eq, List.drop_eq_nil_iff]
    omega
  rw [padRow, List.getLastD_eq_getLast?, List.getLast?_append]
  rcases List.exists_cons_of_ne_nil hne with ⟨x, xs, hx⟩
  rw [← getLastD_drop (seq.length - maxlen) seq 0 hlt, List.getLastD_eq_getLast?, hx]
  simp [List.getLast?_cons]

theorem getLastD_mem {α : Type} (l : List α) (d : α) (h : l ≠ []) : l.getLastD d ∈ l := by
  rcases List.exists_cons_of_ne_nil h with ⟨x, xs, hx⟩
  subst hx
  have := List.getLastD_mem_cons xs x
  rcases List.mem_cons.mp this with h1 | h1
  · rw [List.getLastD_cons, h1]
    exact List.mem_cons_self x xs
  · rw [List.getLastD_cons]
    exact List.mem_cons_of_mem x h1

theorem to_categorical_length (num_classes index : ℕ) :
    (to_categorical num_classes index).length = num_classes := by
  simp [to_categorical]

theorem to_categorical_sum (num_classes index : ℕ) :
    (to_categorical num_classes index).sum = if index < num_classes then 1 else 0 := by
  induction num_classes with
  | zero => simp [to_categorical]
  | succ m ih =>
    rw [to_categorical, List.range_succ, List.map_append, List.sum_append]
    rw [to_categorical] at ih
    rw [ih]
    simp only [List.map_cons, List.map_nil, List.sum_cons, List.sum_nil]
    split_ifs <;> omega

theorem to_categorical_mem (num_classes index v : ℕ)
    (h : v ∈ to_categorical num_classes index) : v = 0 ∨ v = 1 := by
  simp only [to_categorical, List.mem_map] at h
  obtain ⟨j, _, hj⟩ := h
  by_cases hji : j = index
  · rw [if_pos hji] at hj
    omega
  · rw [if_neg hji] at hj
    omega

/-- Claim C6: the Memory Estimator equals (product of shape dimensions) *
item_size / 2^30, is strictly monotone in each shape dimension and in the
item size (other factors positive), and scales linearly: doubling one
dimension, or the item size, doubles the result. -/
theorem claim_C6 :
    (∀ (array_shape : List ℕ) (item_size : ℕ),
      get_array_memory_size array_shape item_size
        = ((array_shape.prod * item_size : ℕ) : ℚ) / 2 ^ 30)
    ∧ (∀ (pre post : List ℕ) (a b item_size : ℕ),
        (∀ x ∈ pre ++ post, 0 < x) → 0 < item_size → a < b →
        get_array_memory_size (pre ++ a :: post) item_size
          < get_array_memory_size (pre ++ b :: post) item_size)
    ∧ (∀ (array_shape : List ℕ) (i j : ℕ),
        (∀ x ∈ array_shape, 0 < x) → i < j →
        get_array_memory_size array_shape i < get_array_memory_size array_shape j)
    ∧ (∀ (pre post : List ℕ) (a item_size : ℕ),
        get_array_memory_size (pre ++ 2 * a :: post) item_size
          = 2 * get_array_memory_size (pre ++ a :: post) item_size)
    ∧ (∀ (array_shape : List ℕ) (item_size : ℕ),
        get_array_memory_size array_shape (2 * item_size)
          = 2 * get_array_memory_size array_shape item_size) := by
  refine ⟨get_array_memory_size_eq_prod, ?_, ?_, ?_, ?_⟩
  · intro pre post a b item_size hpos hitem hab
    rw [get_array_memory_size_eq_prod, get_array_memory_size_eq_prod]
    have hpre : 0 < pre.prod := List.prod_pos fun x hx => hpos x (List.mem_append_left _ hx)
    have hpost : 0 < post.prod := List.prod_pos fun x hx => hpos x (List.mem_append_right _ hx)
    rw [div_lt_div_iff_of_pos_right (by positivity)]
    rw [List.prod_append, List.prod_cons, List.prod_append, List.prod_cons]
    have hnat : pre.prod * (a * post.prod) * item_size
        < pre.prod * (b * post.prod) * item_size :=
      mul_lt_mul_of_pos_right
        (mul_lt_mul_of_pos_left (mul_lt_mul_of_pos_right hab hpost) hpre) hitem
    exact_mod_cast hnat
  · intro array_shape i j hpos hij
    rw [get_array_memory_size_eq_prod, get_array_memory_size_eq_prod]
    have hprod : 0 < array_shape.prod := List.prod_pos hpos
    rw [div_lt_div_iff_of_pos_right (by positivity)]
    exact_mod_cast mul_lt_mul_of_pos_left hij hprod
  · intro pre post a item_size
    rw [get_array_memory_size_eq_prod, get_array_memory_size_eq_prod,
      List.prod_append, List.prod_cons, List.prod_append, List.prod_cons]
    push_cast
    ring
  · intro array_shape item_size
    rw [get_array_memory_size_eq_prod, get_array_memory_size_eq_prod]
    push_cast
    ring

/-- Witness for claim C6 at concrete shapes. -/
theorem claim_C6_witness :
    get_array_memory_size [2, 3] 8 < get_array_memory_size [2, 4] 8
    ∧ get_array_memory_size [2, 3] 4 < get_array_memory_size [2, 3] 8
    ∧ get_array_memory_size [2, 6] 8 = 2 * get_array_memory_size [2, 3] 8
    ∧ get_array_memory_size [2, 3] 16 = 2 * get_array_memory_size [2, 3] 8 := by
  refine ⟨?_, ?_, ?_, ?_⟩
  · exact claim_C6.2.1 [2] [] 3 4 8 (by decide) (by decide) (by decide)
  · exact claim_C6.2.2.1 [2, 3] 4 8 (by decide) (by decide)
  · simpa using claim_C6.2.2.2.1 [2] [] 3 8
  · simpa using claim_C6.2.2.2.2 [2, 3] 8

/-- Claim C4: when the configured memory ceiling is below the projected
footprint of the one-hot target matrix of shape (batch rows, vocab_size +
1) at 8 bytes per element, batch materialization terminates the process
(sys.exit, modelled as Except.error 0): no batch is produced, nothing is
padded or one-hot encoded, and there is no recovery or retry. -/
theorem claim_C4 (input_output_pairs : List (List ℕ)) (vocab_size max_length : ℕ)
    (threshold_gb : ℚ)
    (h : threshold_gb
      < get_array_memory_size [input_output_pairs.length, vocab_size + 1] 8) :
    process_format_to_model_input input_output_pairs vocab_size max_length threshold_gb
      = Except.error 0 :=
  process_format_eq_error input_output_pairs vocab_size max_length threshold_gb h

/-- Witness for claim C4 at a concrete batch and threshold. -/
theorem claim_C4_witness :
    process_format_to_model_input [[1, 2]] 1 3 0 = Except.error 0 := by
  refine claim_C4 [[1, 2]] 1 3 0 ?_
  rw [show ([[1, 2]] : List (List ℕ)).length = 1 from rfl, get_array_memory_size_pair]
  norm_num

/-- Claim C9: the memory guard fires (process exit) exactly when the
projected footprint strictly exceeds the threshold; a footprint equal to
the threshold proceeds to materialize the batch; and the exit status is
always 0. -/
theorem claim_C9 (input_output_pairs : List (List ℕ)) (vocab_size max_length : ℕ)
    (threshold_gb : ℚ) :
    (process_format_to_model_input input_output_pairs vocab_size max_length threshold_gb
        = Except.error 0
      ↔ threshold_gb
          < get_array_memory_size [input_output_pairs.length, vocab_size + 1] 8)
    ∧ (∀ code,
        process_format_to_model_input input_output_pairs vocab_size max_length threshold_gb
          = Except.error code → code = 0)
    ∧ (get_array_memory_size [input_output_pairs.length, vocab_size + 1] 8 = threshold_gb →
        ∃ X y,
          process_format_to_model_input input_output_pairs vocab_size max_length threshold_gb
            = Except.ok (X, y)) := by
  by_cases h : threshold_gb
      < get_array_memory_size [input_output_pairs.length, vocab_size + 1] 8
  · refine ⟨⟨fun _ => h, fun _ => process_format_eq_error _ _ _ _ h⟩, ?_, ?_⟩
    · intro code hcode
      rw [process_format_eq_error _ _ _ _ h] at hcode
      exact (Except.error.injEq _ _).mp hcode.symm
    · intro heq
      exact absurd heq (by intro heq; rw [heq] at h; exact lt_irrefl _ h)
  · have hle := not_lt.mp h
    refine ⟨⟨?_, fun hlt => absurd hlt h⟩, ?_, ?_⟩
    · intro herr
      rw [process_format_eq_ok _ _ _ _ hle] at herr
      exact absurd herr (by simp)
    · intro code hcode
      rw [process_format_eq_ok _ _ _ _ hle] at hcode
      exact absurd hcode (by simp)
    · intro _
      exact ⟨_, _, process_format_eq_ok _ _ _ _ hle⟩

/-- Witness for claim C9: a threshold below the footprint exits with
status 0, and a threshold equal to the footprint materializes a batch. -/
theorem claim_C9_witness :
    process_format_to_model_input [[1, 2]] 1 4 0 = Except.error 0
    ∧ ∃ X y,
        process_format_to_model_input [[1, 2]] 1 4 (get_array_memory_size [1, 2] 8)
          = Except.ok (X, y) := by
  constructor
  · refine (claim_C9 [[1, 2]] 1 4 0).1.mpr ?_
    rw [show ([[1, 2]] : List (List ℕ)).length = 1 from rfl, get_array_memory_size_pair]
    norm_num
  · exact (claim_C9 [[1, 2]] 1 4 (get_array_memory_size [1, 2] 8)).2.2 rfl

/-- Inversion of a successful materialization: the batch is exactly the
padded-and-split form of the buffered pairs. -/
theorem process_format_ok_inv (input_output_pairs : List (List ℕ))
    (vocab_size max_length : ℕ) (threshold_gb : ℚ) (X y : List (List ℕ))
    (hok : process_format_to_model_input input_output_pairs vocab_size max_length
        threshold_gb = Except.ok (X, y)) :
    X = input_output_pairs.map (fun pair => (padRow max_length pair).dropLast)
    ∧ y = input_output_pairs.map (fun pair =>
        to_categorical (vocab_size + 1) ((padRow max_length pair).getLastD 0)) := by
  by_cases hg : get_array_memory_size [input_output_pairs.length, vocab_size + 1] 8
      ≤ threshold_gb
  · rw [process_format_eq_ok _ _ _ _ hg] at hok
    simp only [Except.ok.injEq, Prod.mk.injEq] at hok
    exact ⟨hok.1.symm, hok.2.symm⟩
  · rw [process_format_eq_error _ _ _ _ (not_le.mp hg)] at hok
    exact absurd hok (by simp)

/-- Claim C2: a segment encoding to n tokens yields exactly n - 1 pairs;
the pair at 1-indexed position i is the prefix of length i followed by
the token at position i; fewer than 2 tokens yield no pairs. -/
theorem claim_C2 (encoded : List ℕ) :
    (pairs_of_encoded encoded).length = encoded.length - 1
    ∧ (∀ i, 1 ≤ i → i < encoded.length →
        (pairs_of_encoded encoded).getD (i - 1) []
          = encoded.take i ++ [encoded.getD i 0])
    ∧ (encoded.length < 2 → pairs_of_encoded encoded = []) := by
  refine ⟨by simp [pairs_of_encoded], ?_, ?_⟩
  · intro i h1 h2
    have h3 : i - 1 < encoded.length - 1 := by omega
    have h4 : (1 : ℕ) + 1 * (i - 1) = i := by omega
    rw [pairs_of_encoded, List.getD_eq_getElem?_getD, List.getElem?_map,
      List.getElem?_range' 1 1 h3, Option.map_some', Option.getD_some, h4,
      List.take_succ, List.getElem?_eq_getElem h2]
    rw [List.getD_eq_getElem?_getD, List.getElem?_eq_getElem h2]
    rfl
  · intro h
    have : encoded.length - 1 = 0 := by omega
    rw [pairs_of_encoded, this]
    rfl

/-- Witness for claim C2 on the token sequence [5, 7, 9] and on a
one-token sequence. -/
theorem claim_C2_witness :
    (pairs_of_encoded [5, 7, 9]).length = 2
    ∧ (pairs_of_encoded [5, 7, 9]).getD 1 [] = [5, 7, 9]
    ∧ pairs_of_encoded [5] = [] := by
  refine ⟨(claim_C2 [5, 7, 9]).1, ?_, (claim_C2 [5]).2.2 (by decide)⟩
  have h := (claim_C2 [5, 7, 9]).2.1 2 (by decide) (by decide)
  exact h.trans (by decide)

/-- A text with no newline character is returned whole by the newline-run
split. -/
theorem match_newline_split_aux_no_newline (s : List Char) (h : ∀ c ∈ s, c ≠ '\n') :
    match_newline_split_aux false s = [s] := by
  induction s with
  | nil => rfl
  | cons c cs ih =>
    rw [match_newline_split_aux, if_neg (h c (List.mem_cons_self c cs)),
      ih fun x hx => h x (List.mem_cons_of_mem c hx)]
    rfl

/-- Claim C5: a non-empty document containing no newline characters (so
in particular no blank-line separator runs) passes through the splitting
step as exactly one segment equal to the whole document. -/
theorem claim_C5 (text : List Char) (hne : text ≠ []) (hnl : ∀ c ∈ text, c ≠ '\n') :
    split_nonempty_lines text = [text] := by
  rw [split_nonempty_lines, match_newline_split,
    match_newline_split_aux_no_newline text hnl]
  cases text with
  | nil => exact absurd rfl hne
  | cons c cs => rfl

/-- Witness for claim C5 on a concrete two-character document. -/
theorem claim_C5_witness : split_nonempty_lines ['a', 'b'] = [['a', 'b']] :=
  claim_C5 ['a', 'b'] (by decide) (by decide)

/-- The scanner loop in filter-map form, for any accumulator. -/
theorem get_filenames_foldl (path : String) (entries : List DirEntry) (acc : List String) :
    entries.foldl
        (fun filenames filename =>
          if filename.isDir then filenames else filenames ++ [pathJoin path filename.name])
        acc
      = acc ++ (entries.filter (fun e => !e.isDir)).map (fun e => pathJoin path e.name) := by
  induction entries generalizing acc with
  | nil => simp
  | cons e es ih =>
    rw [List.foldl_cons, ih]
    cases he : e.isDir with
    | true => simp [List.filter_cons, he]
    | false => simp [List.filter_cons, he]

/-- Claim C7: the scanner returns exactly the joined paths of the
non-directory entries (as a set), and on a listing of only files it is
exactly the joined path of every entry. -/
theorem claim_C7 (path : String) (entries : List DirEntry) :
    (∀ x, x ∈ get_filenames_under_path path entries
        ↔ ∃ e, e ∈ entries ∧ e.isDir = false ∧ x = pathJoin path e.name)
    ∧ ((∀ e ∈ entries, e.isDir = false) →
        get_filenames_under_path path entries
          = entries.map (fun e => pathJoin path e.name)) := by
  constructor
  · intro x
    rw [get_filenames_under_path, get_filenames_foldl, List.nil_append]
    simp only [List.mem_map, List.mem_filter, Bool.not_eq_true']
    constructor
    · rintro ⟨e, ⟨he, hd⟩, rfl⟩
      exact ⟨e, he, hd, rfl⟩
    · rintro ⟨e, he, hd, rfl⟩
      exact ⟨e, ⟨he, hd⟩, rfl⟩
  · intro h
    rw [get_filenames_under_path, get_filenames_foldl, List.nil_append,
      List.filter_eq_self.mpr fun e he => by rw [h e he]; rfl]

/-- Witness for claim C7 on a listing with one file and one
subdirectory. -/
theorem claim_C7_witness :
    pathJoin "p" "a" ∈ get_filenames_under_path "p" [⟨"a", false⟩, ⟨"sub", true⟩]
    ∧ get_filenames_under_path "p" [⟨"a", false⟩]
        = ([⟨"a", false⟩] : List DirEntry).map (fun e => pathJoin "p" e.name) := by
  constructor
  · exact (claim_C7 "p" [⟨"a", false⟩, ⟨"sub", true⟩]).1 (pathJoin "p" "a") |>.mpr
      ⟨⟨"a", false⟩, by simp, rfl, rfl⟩
  · exact (claim_C7 "p" [⟨"a", false⟩]).2 (by simp)

/-- Recovering a list from getD lookups over its index range. -/
theorem map_getD_range {α : Type} (l : List α) (d : α) :
    (List.range l.length).map (fun i => l.getD i d) = l := by
  induction l with
  | nil => simp
  | cons x xs ih =>
    rw [List.length_cons, List.range_succ_eq_map, List.map_cons, List.map_map]
    simp only [List.getD_cons_zero]
    have h : ((fun i => (x :: xs).getD i d) ∘ Nat.succ) = fun i => xs.getD i d := rfl
    rw [h, ih]

/-- Claim C8: with more than four curve tuples plot_figure reports and
returns without plotting or saving anything; with at most four tuples it
plots all of them. -/
theorem claim_C8 (figure_name : String) (args : List (List ℚ × List ℚ)) :
    (4 < args.length → plot_figure figure_name args = PlotResult.tooMany)
    ∧ (args.length ≤ 4 →
        ∃ curves, plot_figure figure_name args = PlotResult.plotted curves
          ∧ curves.map Prod.fst = args) := by
  constructor
  · intro h
    simp only [plot_figure, List.length_cons, List.length_nil]
    rw [if_pos (by omega)]
  · intro h
    simp only [plot_figure, List.length_cons, List.length_nil]
    rw [if_neg (by omega)]
    refine ⟨_, rfl, ?_⟩
    rw [List.map_map]
    exact map_getD_range args ([], [])

/-- Witness for claim C8 with five curves and with one curve. -/
theorem claim_C8_witness :
    plot_figure (Char.toString 'f') [([], []), ([], []), ([], []), ([], []), ([], [])]
        = PlotResult.tooMany
    ∧ ∃ curves,
        plot_figure (Char.toString 'f') [([1], [2])] = PlotResult.plotted curves
          ∧ curves.map Prod.fst = [([1], [2])] := by
  constructor
  · exact (claim_C8 (Char.toString 'f')
      [([], []), ([], []), ([], []), ([], []), ([], [])]).1 (by simp)
  · exact (claim_C8 (Char.toString 'f') [([1], [2])]).2 (by simp)

/-- Claim C3 counterexample: with max_length = 4 the code pads [1, 2] to
length 4 = max_length, not to length 3 = max_length - 1, and in the
spec's worked scenario the Input matrix is the first three columns of
each padded row, not the first two. -/
theorem claim_C3_counterexample :
    (padRow 4 [1, 2]).length = 4
    ∧ ¬ ((padRow 4 [1, 2]).length = 4 - 1)
    ∧ process_format_to_model_input [[1, 2], [3, 4], [3, 4, 5]] 7 4 1
        = Except.ok ([[0, 0, 1], [0, 0, 3], [0, 3, 4]],
            [[0, 0, 1, 0, 0, 0, 0, 0], [0, 0, 0, 0, 1, 0, 0, 0],
              [0, 0, 0, 0, 0, 1, 0, 0]])
    ∧ ¬ (([[0, 0, 1], [0, 0, 3], [0, 3, 4]] : List (List ℕ))
        = [[0, 1], [0, 3], [3, 4]]) := by
  refine ⟨by decide, by decide, ?_, by decide⟩
  rw [process_format_eq_ok _ _ _ _ (by rw [get_array_memory_size_pair]; norm_num)]
  exact congrArg Except.ok (by decide)

/-- Claim C3 (amended): during batch materialization each buffered pair
is left-padded (left-truncated if longer) with pad value 0 to exactly
max_length elements, and the Input matrix is all but the last column of
the padded rows; in the worked scenario with max_length = 4 the padded
rows are [0,0,1,2],[0,0,3,4],[0,3,4,5] and the Input matrix keeps the
first three columns of each padded row. -/
theorem claim_C3 (input_output_pairs : List (List ℕ)) (vocab_size max_length : ℕ)
    (threshold_gb : ℚ) (X y : List (List ℕ))
    (hok : process_format_to_model_input input_output_pairs vocab_size max_length
        threshold_gb = Except.ok (X, y)) :
    (∀ pair, (padRow max_length pair).length = max_length)
    ∧ X = input_output_pairs.map (fun pair => (padRow max_length pair).dropLast)
    ∧ ([[1, 2], [3, 4], [3, 4, 5]] : List (List ℕ)).map (padRow 4)
        = [[0, 0, 1, 2], [0, 0, 3, 4], [0, 3, 4, 5]]
    ∧ ([[0, 0, 1, 2], [0, 0, 3, 4], [0, 3, 4, 5]] : List (List ℕ)).map
          (fun row => row.dropLast)
        = [[0, 0, 1], [0, 0, 3], [0, 3, 4]] :=
  ⟨fun pair => padRow_length max_length pair,
    (process_format_ok_inv _ _ _ _ _ _ hok).1, by decide, by decide⟩

/-- Witness for the amended claim C3 at the worked scenario. -/
theorem claim_C3_witness :
    (padRow 4 [3, 4, 5]).length = 4
    ∧ ([[0, 0, 1], [0, 0, 3], [0, 3, 4]] : List (List ℕ))
        = [[1, 2], [3, 4], [3, 4, 5]].map (fun pair => (padRow 4 pair).dropLast) := by
  have hok : process_format_to_model_input [[1, 2], [3, 4], [3, 4, 5]] 7 4 1
      = Except.ok ([[0, 0, 1], [0, 0, 3], [0, 3, 4]],
          [[0, 0, 1, 0, 0, 0, 0, 0], [0, 0, 0, 0, 1, 0, 0, 0],
            [0, 0, 0, 0, 0, 1, 0, 0]]) := by
    rw [process_format_eq_ok _ _ _ _ (by rw [get_array_memory_size_pair]; norm_num)]
    exact congrArg Except.ok (by decide)
  have h := claim_C3 [[1, 2], [3, 4], [3, 4, 5]] 7 4 1 _ _ hok
  exact ⟨h.1 [3, 4, 5], h.2.1⟩

/-- Every pair yielded by the pair generator is non-empty, and its last
element (the prediction target) is a token the encoder produced, hence
bounded by the vocabulary size. -/
theorem pair_stream_mem (docs : List (List Char)) (encode : List Char → List ℕ)
    (vocab_size : ℕ) (henc : ∀ s, ∀ t ∈ encode s, t ≤ vocab_size) :
    ∀ p ∈ generate_input_output_pair_from_corpus docs encode,
      p ≠ [] ∧ p.getLastD 0 ≤ vocab_size := by
  intro p hp
  simp only [generate_input_output_pair_from_corpus, List.mem_flatMap] at hp
  obtain ⟨text, _, line, _, hp⟩ := hp
  simp only [pairs_of_encoded, List.mem_map, List.mem_range'_1] at hp
  obtain ⟨i, ⟨hi1, hi2⟩, rfl⟩ := hp
  have hlen : 2 ≤ (encode line).length := by omega
  have hne : (encode line).take (i + 1) ≠ [] := by
    rw [ne_eq, List.take_eq_nil_iff]
    rintro (h | h)
    · omega
    · rw [h] at hlen
      simp at hlen
  refine ⟨hne, ?_⟩
  exact henc line _ (List.take_subset _ _ (getLastD_mem _ 0 hne))

/-- Every batch yielded during one pass of the assembler loop is the
successful materialization of exactly N buffered pairs, each drawn from
the initial buffer or the pair stream. -/
theorem batch_pass_mem (N vocab_size max_length : ℕ) (threshold_gb : ℚ) (hN : 0 < N) :
    ∀ (pairs : List (List ℕ)) (count : ℕ) (buf : List (List ℕ)),
      buf.length = count → count ≤ N - 1 →
      ∀ B ∈ (batch_pass N vocab_size max_length threshold_gb pairs count buf).1,
        ∃ ps : List (List ℕ), ps.length = N
          ∧ (∀ p ∈ ps, p ∈ buf ∨ p ∈ pairs)
          ∧ process_format_to_model_input ps vocab_size max_length threshold_gb
              = Except.ok B := by
  intro pairs
  induction pairs with
  | nil =>
    intro count buf _ _ B hB
    simp [batch_pass] at hB
  | cons pair rest ih =>
    intro count buf hlen hcount B hB
    simp only [batch_pass] at hB
    by_cases hc : count < N - 1
    · rw [if_pos hc] at hB
      obtain ⟨ps, h1, h2, h3⟩ := ih (count + 1) (buf ++ [pair])
        (by simp [hlen]) (by omega) B hB
      refine ⟨ps, h1, ?_, h3⟩
      intro p hp
      rcases h2 p hp with h | h
      · rcases List.mem_append.mp h with h | h
        · exact Or.inl h
        · exact Or.inr (by simp at h; simp [h])
      · exact Or.inr (List.mem_cons_of_mem pair h)
    · rw [if_neg hc] at hB
      rcases hok : process_format_to_model_input (buf ++ [pair]) vocab_size
          max_length threshold_gb with code | batch
      · rw [hok] at hB
        simp at hB
      · rw [hok] at hB
        have hB2 : B = batch ∨ B ∈ (batch_pass N vocab_size max_length threshold_gb
            rest 0 []).1 := List.mem_cons.mp hB
      

        rcases hB2 with rfl | h
        · refine ⟨buf ++ [pair], by simp [hlen]; omega, ?_, hok⟩
          intro p hp
          rcases List.mem_append.mp hp with h | h
          · exact Or.inl h
          · exact Or.inr (by simp at h; simp [h])
        · obtain ⟨ps, h1, h2, h3⟩ := ih 0 [] rfl (by omega) B h
          refine ⟨ps, h1, ?_, h3⟩
          intro p hp
          rcases h2 p hp with h | h
          · simp at h
          · exact Or.inr (List.mem_cons_of_mem pair h)

/-- Every batch yielded over any number of passes of the assembler is
the successful materialization of exactly N pairs of the pair stream. -/
theorem generate_batches_mem (N vocab_size max_length : ℕ) (threshold_gb : ℚ)
    (docs : List (List Char)) (encode : List Char → List ℕ) (hN : 0 < N) :
    ∀ passes, ∀ B ∈ (generate_batch_samples_from_corpus N vocab_size max_length
        threshold_gb docs encode passes).1,
      ∃ ps : List (List ℕ), ps.length = N
        ∧ (∀ p ∈ ps, p ∈ generate_input_output_pair_from_corpus docs encode)
        ∧ process_format_to_model_input ps vocab_size max_length threshold_gb
            = Except.ok B := by
  intro passes
  induction passes with
  | zero =>
    intro B hB
    simp [generate_batch_samples_from_corpus] at hB
  | succ m ih =>
    intro B hB
    rcases hsplit : batch_pass N vocab_size max_length threshold_gb
        (generate_input_output_pair_from_corpus docs encode) 0 [] with ⟨bs, e⟩
    simp only [generate_batch_samples_from_corpus, hsplit] at hB
    have hbs : ∀ B' ∈ bs, ∃ ps : List (List ℕ), ps.length = N
        ∧ (∀ p ∈ ps, p ∈ generate_input_output_pair_from_corpus docs encode)
        ∧ process_format_to_model_input ps vocab_size max_length threshold_gb
            = Except.ok B' := by
      intro B' hB'
      obtain ⟨ps, h1, h2, h3⟩ := batch_pass_mem N vocab_size max_length threshold_gb
        hN (generate_input_output_pair_from_corpus docs encode) 0 [] rfl
        (by omega) B' (by rw [hsplit]; exact hB')
      exact ⟨ps, h1, fun p hp => (h2 p hp).resolve_left (by simp), h3⟩
    rcases e with _ | code
    · have hB3 : B ∈ bs ++ (generate_batch_samples_from_corpus N vocab_size
          max_length threshold_gb docs encode m).1 := hB
      rcases List.mem_append.mp hB3 with h | h
      · exact hbs B h
      · exact ih B h
    · have hB3 : B ∈ bs := hB
      exact hbs B hB3

/-- Shape of a successfully materialized batch: as many X rows and y
rows as buffered pairs, and every y row a valid one-hot vector of width
vocab_size + 1 summing to 1. -/
theorem batch_shape (vocab_size max_length : ℕ) (threshold_gb : ℚ)
    (ps : List (List ℕ)) (X y : List (List ℕ)) (hmax : 0 < max_length)
    (hp : ∀ p ∈ ps, p ≠ [] ∧ p.getLastD 0 ≤ vocab_size)
    (hok : process_format_to_model_input ps vocab_size max_length threshold_gb
        = Except.ok (X, y)) :
    X.length = ps.length ∧ y.length = ps.length
      ∧ ∀ row ∈ y, row.length = vocab_size + 1 ∧ row.sum = 1
          ∧ ∀ v ∈ row, v = 0 ∨ v = 1 := by
  obtain ⟨hX, hy⟩ := process_format_ok_inv _ _ _ _ _ _ hok
  subst hX
  subst hy
  refine ⟨List.length_map _ _, List.length_map _ _, ?_⟩
  intro row hrow
  rw [List.mem_map] at hrow
  obtain ⟨pair, hpair, rfl⟩ := hrow
  obtain ⟨hne, hle⟩ := hp pair hpair
  rw [padRow_getLastD max_length pair hmax hne]
  refine ⟨to_categorical_length _ _, ?_, fun v hv => to_categorical_mem _ _ _ hv⟩
  rw [to_categorical_sum, if_pos (by omega)]

/-- Claim C1: every batch the Batch Assembler yields, over any number of
passes, has an Input matrix with exactly N = BATCH_SAMPLES_NUMBER rows
and a Target matrix with exactly N rows of width vocab_size + 1, each a
valid one-hot vector summing to exactly 1; no batch with fewer than N
pairs is ever yielded. -/
theorem claim_C1 (N vocab_size max_length passes : ℕ) (threshold_gb : ℚ)
    (docs : List (List Char)) (encode : List Char → List ℕ)
    (hN : 0 < N) (hmax : 0 < max_length)
    (henc : ∀ s, ∀ t ∈ encode s, t ≤ vocab_size) :
    ∀ B ∈ (generate_batch_samples_from_corpus N vocab_size max_length threshold_gb
        docs encode passes).1,
      B.1.length = N ∧ B.2.length = N
        ∧ ∀ row ∈ B.2, row.length = vocab_size + 1 ∧ row.sum = 1
            ∧ ∀ v ∈ row, v = 0 ∨ v = 1 := by
  intro B hB
  obtain ⟨ps, hlen, hmem, hok⟩ := generate_batches_mem N vocab_size max_length
    threshold_gb docs encode hN passes B hB
  have hp : ∀ p ∈ ps, p ≠ [] ∧ p.getLastD 0 ≤ vocab_size := fun p hps =>
    pair_stream_mem docs encode vocab_size henc p (hmem p hps)
  obtain ⟨X, y⟩ := B
  obtain ⟨h1, h2, h3⟩ := batch_shape vocab_size max_length threshold_gb ps X y
    hmax hp hok
  exact ⟨by rw [h1, hlen], by rw [h2, hlen], h3⟩

/-- Witness for claim C1 on a one-document corpus with N = 1. -/
theorem claim_C1_witness :
    (([[1]], [[0, 1]]) ∈ (generate_batch_samples_from_corpus 1 1 2 1 [['a']]
        (fun _ => [1, 1]) 1).1)
    ∧ ([[1]] : List (List ℕ)).length = 1
    ∧ ([[0, 1]] : List (List ℕ)).length = 1
    ∧ ([0, 1] : List ℕ).length = 1 + 1
    ∧ ([0, 1] : List ℕ).sum = 1 := by
  have hstream : generate_input_output_pair_from_corpus [['a']] (fun _ => [1, 1])
      = [[1, 1]] := by decide
  have hok : process_format_to_model_input [[1, 1]] 1 2 1
      = Except.ok ([[1]], [[0, 1]]) := by
    rw [process_format_eq_ok _ _ _ _ (by rw [get_array_memory_size_pair]; norm_num)]
    exact congrArg Except.ok (by decide)
  have hpass : batch_pass 1 1 2 1 [[1, 1]] 0 [] = ([([[1]], [[0, 1]])], none) := by
    simp only [batch_pass, List.nil_append]
    rw [if_neg (by omega), hok]
  have hgen : generate_batch_samples_from_corpus 1 1 2 1 [['a']]
      (fun _ => [1, 1]) 1 = ([([[1]], [[0, 1]])], none) := by
    simp [generate_batch_samples_from_corpus, hstream, hpass]
  have hmem : ([[1]], [[0, 1]]) ∈ (generate_batch_samples_from_corpus 1 1 2 1 [['a']]
      (fun _ => [1, 1]) 1).1 := by
    simp [hgen]
  have h := claim_C1 1 1 2 1 1 [['a']] (fun _ => [1, 1]) (by omega) (by omega)
    (fun s t ht => by simp at ht; omega) ([[1]], [[0, 1]]) hmem
  exact ⟨hmem, h.1, h.2.1, (h.2.2 [0, 1] (by simp)).1, (h.2.2 [0, 1] (by simp)).2.1⟩

/-- A pass whose pair stream runs out before the buffer plus the stream
reaches N pairs yields nothing and does not exit. -/
theorem batch_pass_short (N vocab_size max_length : ℕ) (threshold_gb : ℚ) :
    ∀ (pairs : List (List ℕ)) (count : ℕ) (buf : List (List ℕ)),
      count + pairs.length < N →
      batch_pass N vocab_size max_length threshold_gb pairs count buf = ([], none) := by
  intro pairs
  induction pairs with
  | nil =>
    intro count buf _
    simp [batch_pass]
  | cons pair rest ih =>
    intro count buf h
    rw [List.length_cons] at h
    simp only [batch_pass]
    rw [if_pos (by omega)]
    exact ih (count + 1) (buf ++ [pair]) (by omega)

/-- Claim C10: a corpus whose complete pass produces fewer than N pairs
never fills a batch: for every number of passes of the infinite loop the
assembler has yielded nothing (and not exited), each pass restarting
with an empty buffer. -/
theorem claim_C10 (N vocab_size max_length : ℕ) (threshold_gb : ℚ)
    (docs : List (List Char)) (encode : List Char → List ℕ)
    (hshort : (generate_input_output_pair_from_corpus docs encode).length < N) :
    ∀ passes, generate_batch_samples_from_corpus N vocab_size max_length threshold_gb
        docs encode passes = ([], none) := by
  intro passes
  induction passes with
  | zero => simp [generate_batch_samples_from_corpus]
  | succ m ih =>
    have hpass := batch_pass_short N vocab_size max_length threshold_gb
      (generate_input_output_pair_from_corpus docs encode) 0 [] (by omega)
    simp [generate_batch_samples_from_corpus, hpass, ih]

/-- Witness for claim C10: a corpus producing a single empty encoding
has zero pairs, so three passes yield nothing. -/
theorem claim_C10_witness :
    generate_batch_samples_from_corpus 1 0 1 0 [['a']] (fun _ => []) 3 = ([], none) :=
  claim_C10 1 0 1 0 [['a']] (fun _ => []) (by decide) 3
